import Mathlib

/-!
Verification of the timetable constraint-modelling engine
(`ScheduleGenerator` in `modelo_horarios.py`).

The Python class is shallowly embedded: its dictionaries become
association lists (insertion order preserved, keys unique in practice),
its sets of slot indices become sorted duplicate-free lists, exceptions
become `Except`/explicit outcome constructors (a `ValueError` is an
unstructured token, as the exception names no offending entity), and
the CP-SAT model becomes an explicit list of linear constraints over
boolean variables.  Clock numerals are parsed as `int()` parses ASCII
strings: surrounding whitespace stripped, an optional `+` sign, digits
with underscores between them.
-/

namespace Horarios

/-- Fixed ordered workday list (`self.days`). -/
def days : List String := ["Lunes", "Martes", "Miércoles", "Jueves", "Viernes"]

/-- A course record (`self.courses[course_id]`). -/
structure CourseInfo where
  intensity : Nat
  teacher : String
  room_type : String
  students : Nat
  semester : Option String
deriving DecidableEq, Repr

/-- A classroom record (`self.classrooms[aula_id]`). -/
structure Room where
  type : String
  capacity : Nat
deriving DecidableEq, Repr

/-- Raw availability: teacher → day → clock-range strings. -/
abbrev RawAvail := List (String × List (String × List String))

/-- Parsed availability: teacher → day → sorted slot indices. -/
abbrev ParsedAvail := List (String × List (String × List Nat))

/-- The whole input snapshot handed to `ScheduleGenerator.__init__`. -/
structure Input where
  teacher_availabilities : RawAvail
  courses : List (String × CourseInfo)
  classrooms : List (String × Room)

/-- First value bound to a key in an association list (Python dict read). -/
def alist.get? {κ α : Type} [DecidableEq κ] (m : List (κ × α)) (k : κ) : Option α :=
  (m.find? (fun p => p.1 = k)).map (·.2)

/-- Insertion into a sorted duplicate-free list, modelling `set.add`
followed by `sorted` on integer slot indices. -/
def insertSorted (x : Nat) : List Nat → List Nat
  | [] => [x]
  | y :: ys =>
    if x < y then x :: y :: ys
    else if x = y then y :: ys
    else y :: insertSorted x ys

/-- `range(start, stop, 30)` for non-negative bounds. -/
def pyRange30 (start stop : Nat) : List Nat :=
  (List.range ((stop - start + 29) / 30)).map (fun k => start + 30 * k)

/-- Splitting a character list on a separator; `splitChar sep [] = [[]]`
exactly as Python's `"".split(sep) == ['']`. -/
def splitChar (sep : Char) : List Char → List (List Char)
  | [] => [[]]
  | c :: cs =>
    let rest := splitChar sep cs
    if c = sep then [] :: rest
    else match rest with
      | [] => [[c]]
      | r :: rs => (c :: r) :: rs

/-- Python `s.split(sep)` for a one-character separator. -/
def pySplit (sep : Char) (s : String) : List String :=
  (splitChar sep s.data).map (fun cs => String.mk cs)

/-- The ASCII characters Python's `int()` strips around a numeric
literal: `\t`–`\r` and the space (checked against CPython 3.11). -/
def isPySpace (c : Char) : Bool :=
  c.toNat == 32 || (9 ≤ c.toNat && c.toNat ≤ 13)

/-- Continuation of an integer-literal digit body: digits, with single
underscores allowed strictly between digits. -/
def intBodyRest : List Char → Bool
  | [] => true
  | '_' :: d :: cs => d.isDigit && intBodyRest cs
  | ['_'] => false
  | c :: cs => c.isDigit && intBodyRest cs

/-- A nonempty integer-literal digit body, `\d+(_\d+)*`. -/
def intBody : List Char → Bool
  | [] => false
  | c :: cs => c.isDigit && intBodyRest cs

/-- Numeric value of a digit body with underscores removed. -/
def natOfDigits (cs : List Char) : Nat :=
  (cs.filter (fun c => c != '_')).foldl (fun n c => n * 10 + (c.toNat - 48)) 0

/-- Python `int(s)` for the ASCII strings reachable here: surrounding
whitespace is stripped, one leading `+` is allowed, and then a digit
body with underscores between digits must follow.  A leading `-`
cannot reach this function (the caller has already split on `-`), and
non-ASCII decimal digits, which `int()` also accepts, are outside the
ASCII scope this model is stated for. -/
def pyNat? (s : String) : Option Nat :=
  match (((s.data.dropWhile isPySpace).reverse.dropWhile isPySpace).reverse) with
  | '+' :: cs => if intBody cs then some (natOfDigits cs) else none
  | cs => if intBody cs then some (natOfDigits cs) else none

/-- `sh, sm = map(int, s.split(":"))`: exactly two colon-separated
decimal numerals, else the Python `ValueError` (here `none`). -/
def parseClock (s : String) : Option (Nat × Nat) :=
  match pySplit ':' s with
  | [h, m] =>
    match pyNat? h, pyNat? m with
    | some a, some b => some (a, b)
    | _, _ => none
  | _ => none

/-- One iteration of the inner loop of `parse_availability`: split a
range string on `-`, parse both clocks, and emit the covered slot
indices `t // 30` for `t in range(start, end, 30)`. -/
def parseSlotRange (slot : String) : Option (List Nat) :=
  match pySplit '-' slot with
  | [start_str, end_str] =>
    match parseClock start_str, parseClock end_str with
    | some (sh, sm), some (eh, em) =>
      some ((pyRange30 (sh * 60 + sm) (eh * 60 + em)).map (· / 30))
    | _, _ => none
  | _ => none

/-- The exception escaping from `int()` or tuple unpacking.  The
Python `ValueError` carries only a message and names neither the
teacher nor the day (for unpacking-arity errors not even the string),
so it is modelled as an unstructured token. -/
inductive PyExn
  | valueError
deriving DecidableEq, Repr

/-- Accumulate the slot indices of a day's range strings into the
`slot_idxs` sorted set, failing on the first malformed string.
`t` and `d` are the enclosing loop variables. -/
def parseDaySlots (t d : String) : List String → List Nat → Except PyExn (List Nat)
  | [], acc => .ok acc
  | s :: rest, acc =>
    match parseSlotRange s with
    | none => .error .valueError
    | some idxs => parseDaySlots t d rest (idxs.foldl (fun a x => insertSorted x a) acc)

/-- All days of one teacher. -/
def parseTeacherDays (t : String) :
    List (String × List String) → Except PyExn (List (String × List Nat))
  | [] => .ok []
  | (d, slots) :: rest =>
    match parseDaySlots t d slots [] with
    | .error e => .error e
    | .ok idxs =>
      match parseTeacherDays t rest with
      | .error e => .error e
      | .ok tail => .ok ((d, idxs) :: tail)

/-- `ScheduleGenerator.parse_availability`. -/
def parse_availability : RawAvail → Except PyExn ParsedAvail
  | [] => .ok []
  | (t, ds) :: rest =>
    match parseTeacherDays t ds with
    | .error e => .error e
    | .ok pds =>
      match parse_availability rest with
      | .error e => .error e
      | .ok tail => .ok ((t, pds) :: tail)

/-- Hour contribution of one range string inside
`validate_teacher_availability`: `int(end.split(":")[0]) -
int(start.split(":")[0])`, a `ValueError` (`none`) if either hour field
is not numeric or the split on `-` does not give exactly two parts. -/
def slotHours (slot : String) : Option Int :=
  match pySplit '-' slot with
  | [start_str, end_str] =>
    match pyNat? ((pySplit ':' start_str).headD ""),
          pyNat? ((pySplit ':' end_str).headD "") with
    | some sh, some eh => some ((eh : Int) - (sh : Int))
    | _, _ => none
  | _ => none

/-- Sum of `slotHours` over one day's range strings; `t` and `d` are
the enclosing loop variables. -/
def dayHours (t d : String) : List String → Int → Except PyExn Int
  | [], acc => .ok acc
  | s :: rest, acc =>
    match slotHours s with
    | none => .error .valueError
    | some h => dayHours t d rest (acc + h)

/-- `total_available_hours` of one teacher: iterate `self.days`, adding
the hours of the days present in the teacher's availability dict. -/
def teacherAvailableHours (t : String) (av : List (String × List String)) :
    List String → Int → Except PyExn Int
  | [], acc => .ok acc
  | d :: rest, acc =>
    match alist.get? av d with
    | none => teacherAvailableHours t av rest acc
    | some slots =>
      match dayHours t d slots 0 with
      | .error e => .error e
      | .ok h => teacherAvailableHours t av rest (acc + h)

/-- `total_assigned_hours`: summed intensity of the courses whose
`teacher` field equals `t`. -/
def total_assigned_hours (courses : List (String × CourseInfo)) (t : String) : Nat :=
  ((courses.filter (fun p => p.2.teacher = t)).map (fun p => p.2.intensity)).sum

/-- `ScheduleGenerator.validate_teacher_availability`.  `.ok none`
models the `return True` path; `.ok (some (t, assigned, available))`
models the printed diagnostic followed by `return False`; `.error`
models a `ValueError` escaping from the hour parsing. -/
def validate_teacher_availability (courses : List (String × CourseInfo)) :
    RawAvail → Except PyExn (Option (String × Nat × Int))
  | [] => .ok none
  | (t, av) :: rest =>
    match teacherAvailableHours t av days 0 with
    | .error e => .error e
    | .ok hours =>
      if (total_assigned_hours courses t : Int) > hours then
        .ok (some (t, total_assigned_hours courses t, hours))
      else validate_teacher_availability courses rest

/-- Inner loop of `generate_possible_time_blocks`: extend `block` along
the remaining slots while each next slot is `block[-1] + 1`, emitting
the block the moment it reaches `block_len`. -/
def extendBlock (block_len : Nat) : List Nat → List Nat → Option (List Nat)
  | _, [] => none
  | block, x :: rest =>
    match block.getLast? with
    | none =>
      if (block ++ [x]).length = block_len then some (block ++ [x])
      else extendBlock block_len (block ++ [x]) rest
    | some last =>
      if x = last + 1 then
        if (block ++ [x]).length = block_len then some (block ++ [x])
        else extendBlock block_len (block ++ [x]) rest
      else none

/-- `ScheduleGenerator.generate_possible_time_blocks`. -/
def generate_possible_time_blocks (available_slots : List Nat) (block_len : Nat) :
    List (List Nat) :=
  (List.range available_slots.length).filterMap
    (fun i => extendBlock block_len [] (available_slots.drop i))

/-- The partition policy of `generate_schedule`:
`[intensity_slots] if intensity <= 4 else [6, 4]`. -/
def block_sizes (intensity : Nat) : List Nat :=
  if intensity ≤ 4 then [intensity * 2] else [6, 4]

/-- `aulas_compatibles`: classrooms whose type matches and whose
capacity covers the course's student count, in dictionary order. -/
def aulas_compatibles (classrooms : List (String × Room)) (info : CourseInfo) :
    List String :=
  (classrooms.filter (fun p => p.2.type = info.room_type ∧ p.2.capacity ≥ info.students)).map
    (·.1)

/-- The CP-SAT boolean variables of `generate_schedule`:
`schedule_vars`, `classroom_vars`, and the per-day auxiliary booleans
of the single-day constraint. -/
inductive Var
  | sched (course day : String) (idx : Nat)
  | room (course day : String) (idx : Nat) (aula : String)
  | used (course day : String)
deriving DecidableEq, Repr

/-- Linear constraints posted on the model, over 0/1 variables. -/
inductive Constr
  | eqC (terms : List (Nat × Var)) (rhs : Nat)
  | leC (terms : List (Nat × Var)) (rhs : Nat)
  | geIf (v : Var) (terms : List (Nat × Var)) (rhs : Nat)
  | eqIfNot (v : Var) (terms : List (Nat × Var)) (rhs : Nat)
  | eqVar (terms : List (Nat × Var)) (v : Var)
deriving DecidableEq, Repr

/-- 0/1 value of a boolean variable under an assignment. -/
def boolVal (σ : Var → Bool) (v : Var) : Nat := if σ v then 1 else 0

/-- Value of a weighted sum of boolean variables. -/
def evalSum (σ : Var → Bool) (terms : List (Nat × Var)) : Nat :=
  (terms.map (fun t => t.1 * boolVal σ t.2)).sum

/-- Satisfaction of one constraint. -/
def holdsCon (σ : Var → Bool) : Constr → Prop
  | .eqC terms rhs => evalSum σ terms = rhs
  | .leC terms rhs => evalSum σ terms ≤ rhs
  | .geIf v terms rhs => σ v = true → rhs ≤ evalSum σ terms
  | .eqIfNot v terms rhs => σ v = false → evalSum σ terms = rhs
  | .eqVar terms v => evalSum σ terms = boolVal σ v

instance (σ : Var → Bool) (c : Constr) : Decidable (holdsCon σ c) := by
  cases c <;> simp only [holdsCon] <;> infer_instance

/-- An assignment accepted as a solution satisfies every posted
constraint. -/
def Satisfies (σ : Var → Bool) (cs : List Constr) : Prop :=
  ∀ c ∈ cs, holdsCon σ c

instance (σ : Var → Bool) (cs : List Constr) : Decidable (Satisfies σ cs) :=
  List.decidableBAll _ cs

/-- The availability list a course's teacher contributes on one day:
`self.teacher_availabilities.get(teacher, {}).get(day, [])`. -/
def availOf (parsed : ParsedAvail) (teacher day : String) : List Nat :=
  ((alist.get? parsed teacher).bind (fun dm => alist.get? dm day)).getD []

/-- Per-course candidate block table: the `(course, day) → possible`
entries contributed by one course (days with no availability or no
feasible block are skipped, as in the source). -/
def courseBlocks (parsed : ParsedAvail) (cid : String) (info : CourseInfo) :
    List ((String × String) × List (List Nat)) :=
  days.filterMap (fun day =>
    if availOf parsed info.teacher day = [] then none
    else if (block_sizes info.intensity).flatMap
        (fun bs => generate_possible_time_blocks (availOf parsed info.teacher day) bs) = []
      then none
    else some ((cid, day),
      (block_sizes info.intensity).flatMap
        (fun bs => generate_possible_time_blocks (availOf parsed info.teacher day) bs)))

/-- The variable/block construction loop of `generate_schedule`:
raises (`.error cid`) at the first course with no compatible room,
otherwise returns the full `all_blocks` table. -/
def buildBlocksAux (classrooms : List (String × Room)) (parsed : ParsedAvail) :
    List (String × CourseInfo) →
    Except String (List ((String × String) × List (List Nat)))
  | [] => .ok []
  | (cid, info) :: rest =>
    if aulas_compatibles classrooms info = [] then .error cid
    else
      match buildBlocksAux classrooms parsed rest with
      | .error e => .error e
      | .ok tail => .ok (courseBlocks parsed cid info ++ tail)

/-- `all_blocks.get((course_id, day), [])`. -/
def blocksAt (ab : List ((String × String) × List (List Nat)))
    (cid day : String) : List (List Nat) :=
  (alist.get? ab (cid, day)).getD []

/-- Coverage constraint terms of one course: indicator × block length
over all days and candidate indices. -/
def covTerms (ab : List ((String × String) × List (List Nat))) (cid : String) :
    List (Nat × Var) :=
  days.flatMap (fun day =>
    (blocksAt ab cid day).enum.map (fun p => (p.2.length, Var.sched cid day p.1)))

/-- Constraint family 2: each course covers exactly `intensity * 2`
half-hour slots. -/
def coverageCons (ab : List ((String × String) × List (List Nat)))
    (courses : List (String × CourseInfo)) : List Constr :=
  courses.map (fun p => .eqC (covTerms ab p.1) (p.2.intensity * 2))

/-- Constraint family 3: at most one block per day per course. -/
def onePerDayCons (ab : List ((String × String) × List (List Nat)))
    (courses : List (String × CourseInfo)) : List Constr :=
  courses.flatMap (fun p =>
    days.filterMap (fun day =>
      let n := (blocksAt ab p.1 day).length
      if n = 0 then none
      else some (.leC ((List.range n).map (fun idx => (1, Var.sched p.1 day idx))) 1)))

/-- Constraint family 4: a course with intensity ≤ 4 is placed on
exactly one day, through per-day auxiliary booleans. -/
def singleDayCons (ab : List ((String × String) × List (List Nat)))
    (courses : List (String × CourseInfo)) : List Constr :=
  courses.flatMap (fun p =>
    if p.2.intensity ≤ 4 then
      let dayCons := days.flatMap (fun day =>
        let n := (blocksAt ab p.1 day).length
        if n = 0 then []
        else
          let terms := (List.range n).map (fun idx => (1, Var.sched p.1 day idx))
          [Constr.geIf (Var.used p.1 day) terms 1,
           Constr.eqIfNot (Var.used p.1 day) terms 0])
      let dayAssigned := days.filterMap (fun day =>
        if (blocksAt ab p.1 day).length = 0 then none
        else some ((1 : Nat), Var.used p.1 day))
      dayCons ++ (if dayAssigned = [] then [] else [Constr.eqC dayAssigned 1])
    else [])

/-- `slot_map.setdefault(slot, []).append(var)`, kept as an association
list in key-insertion order. -/
def smAdd {κ β : Type} [DecidableEq κ] (m : List (κ × List β)) (k : κ) (v : β) :
    List (κ × List β) :=
  match m with
  | [] => [(k, [v])]
  | (s, vs) :: rest =>
    if s = k then (s, vs ++ [v]) :: rest else (s, vs) :: smAdd rest k v

/-- The `(slot, var)` pairs appended into the teacher-non-overlap
`slot_map` for one `(teacher, day)`, in iteration order. -/
def slotEntries (courses : List (String × CourseInfo))
    (ab : List ((String × String) × List (List Nat))) (teacher day : String) :
    List (Nat × Var) :=
  courses.flatMap (fun p =>
    if p.2.teacher = teacher then
      (blocksAt ab p.1 day).enum.flatMap (fun q =>
        q.2.map (fun slot => (slot, Var.sched p.1 day q.1)))
    else [])

/-- Fold a list of `(key, value)` pairs through `smAdd`. -/
def slotMapOf {κ β : Type} [DecidableEq κ] (es : List (κ × β)) : List (κ × List β) :=
  es.foldl (fun m e => smAdd m e.1 e.2) []

/-- Constraint family 5: teacher non-overlap, one `≤ 1` constraint per
occupied `(teacher, day, slot)` in `slot_map` order. -/
def teacherOverlapCons (parsed : ParsedAvail)
    (courses : List (String × CourseInfo))
    (ab : List ((String × String) × List (List Nat))) : List Constr :=
  parsed.flatMap (fun tp =>
    days.flatMap (fun day =>
      (slotMapOf (slotEntries courses ab tp.1 day)).map
        (fun sv => .leC (sv.2.map (fun v => (1, v))) 1)))

/-- Constraint family 6: candidates touching the lunch slots 24/25 are
hard-fixed to zero. -/
def reservedCons (ab : List ((String × String) × List (List Nat))) : List Constr :=
  ab.flatMap (fun e =>
    e.2.enum.filterMap (fun q =>
      if q.2.any (fun s => s == 24 || s == 25) then
        some (.eqC [(1, Var.sched e.1.1 e.1.2 q.1)] 0)
      else none))

/-- Whether the room variable `(cid, day, idx, aula)` was created:
`aula` is compatible with the course bound to `cid`. -/
def roomVarExists (courses : List (String × CourseInfo))
    (classrooms : List (String × Room)) (cid aula : String) : Bool :=
  match alist.get? courses cid with
  | some info => (aulas_compatibles classrooms info).contains aula
  | none => false

/-- Constraint family (f): for every candidate, the sum of its room
indicators equals its own block indicator. -/
def roomLinkCons (courses : List (String × CourseInfo))
    (classrooms : List (String × Room))
    (ab : List ((String × String) × List (List Nat))) : List Constr :=
  ab.flatMap (fun e =>
    e.2.enum.filterMap (fun q =>
      let vars_aula := (classrooms.map (·.1)).filterMap (fun aula =>
        if roomVarExists courses classrooms e.1.1 aula then
          some ((1 : Nat), Var.room e.1.1 e.1.2 q.1 aula)
        else none)
      if vars_aula = [] then none
      else some (.eqVar vars_aula (Var.sched e.1.1 e.1.2 q.1))))

/-- The `(slot, room-var)` pairs of the room-non-overlap `slot_map`
for one `(aula, day)`. -/
def roomSlotEntries (courses : List (String × CourseInfo))
    (classrooms : List (String × Room))
    (ab : List ((String × String) × List (List Nat))) (aula day : String) :
    List (Nat × Var) :=
  ab.flatMap (fun e =>
    if e.1.2 = day then
      e.2.enum.flatMap (fun q =>
        if roomVarExists courses classrooms e.1.1 aula then
          q.2.map (fun slot => (slot, Var.room e.1.1 e.1.2 q.1 aula))
        else [])
    else [])

/-- Constraint family (g): room non-overlap. -/
def roomOverlapCons (courses : List (String × CourseInfo))
    (classrooms : List (String × Room))
    (ab : List ((String × String) × List (List Nat))) : List Constr :=
  classrooms.flatMap (fun rp =>
    days.flatMap (fun day =>
      (slotMapOf (roomSlotEntries courses classrooms ab rp.1 day)).map
        (fun sv => .leC (sv.2.map (fun v => (1, v))) 1)))

/-- Constraint family R8: at most 40 selected half-hour slots per
teacher.  The source iterates a Python set of teacher names; it is
modelled in first-occurrence order. -/
def loadCapCons (courses : List (String × CourseInfo))
    (ab : List ((String × String) × List (List Nat))) : List Constr :=
  ((courses.map (fun p => p.2.teacher)).dedup).map (fun docente =>
    .leC (courses.flatMap (fun p =>
      if p.2.teacher = docente then
        days.flatMap (fun d =>
          (blocksAt ab p.1 d).enum.map (fun q => (q.2.length, Var.sched p.1 d q.1)))
      else [])) 40)

/-- All constraints posted on the CP-SAT model, in source order. -/
def allConstraints (courses : List (String × CourseInfo))
    (classrooms : List (String × Room)) (parsed : ParsedAvail)
    (ab : List ((String × String) × List (List Nat))) : List Constr :=
  coverageCons ab courses ++ onePerDayCons ab courses ++ singleDayCons ab courses ++
    teacherOverlapCons parsed courses ab ++ reservedCons ab ++
    roomLinkCons courses classrooms ab ++ roomOverlapCons courses classrooms ab ++
    loadCapCons courses ab

/-- The constraint model handed to the solver. -/
structure BuiltModel where
  parsed : ParsedAvail
  all_blocks : List ((String × String) × List (List Nat))
  constraints : List Constr

/-- Outcome of everything `generate_schedule` does before calling the
solver. -/
inductive GenResult
  | availCrash (e : PyExn)
  | validationFailed (teacher : String) (assigned : Nat) (available : Int)
  | noRoom (course : String)
  | built (m : BuiltModel)

/-- `generate_schedule` up to (and excluding) `solver.Solve`. -/
def build_schedule_model (inp : Input) : GenResult :=
  match validate_teacher_availability inp.courses inp.teacher_availabilities with
  | .error e => .availCrash e
  | .ok (some f) => .validationFailed f.1 f.2.1 f.2.2
  | .ok none =>
    match parse_availability inp.teacher_availabilities with
    | .error e => .availCrash e
    | .ok parsed =>
      match buildBlocksAux inp.classrooms parsed inp.courses with
      | .error cid => .noRoom cid
      | .ok ab => .built ⟨parsed, ab, allConstraints inp.courses inp.classrooms parsed ab⟩

/-- Solver verdicts of the adapter contract. -/
inductive SolverStatus
  | optimal | feasible | infeasible | unknown
deriving DecidableEq, Repr

/-- One placement appended to `self.schedule[course_id]`. -/
structure Entry where
  day : String
  hour : String
  teacher : String
  classroom : String
  semester : Option String
deriving DecidableEq, Repr

/-- `f"{n:02d}"` for a non-negative value. -/
def fmt2 (n : Nat) : String :=
  (if n < 10 then "0" else "") ++ toString n

/-- The `"HH:MM-HH:MM"` label rebuilt from a selected block. -/
def timeframe (block : List Nat) : String :=
  let start := block.headD 0
  let e := block.getLastD 0 + 1
  fmt2 (start * 30 / 60) ++ ":" ++ fmt2 (start * 30 % 60) ++ "-" ++
    fmt2 (e * 30 / 60) ++ ":" ++ fmt2 (e * 30 % 60)

/-- `next(aula for aula in self.classrooms if ... )` over a selected
candidate: the first classroom whose room variable exists and solved
to true. -/
def pickAula (courses : List (String × CourseInfo))
    (classrooms : List (String × Room)) (σ : Var → Bool)
    (cid day : String) (idx : Nat) : Option String :=
  (classrooms.map (·.1)).find? (fun aula =>
    roomVarExists courses classrooms cid aula && σ (Var.room cid day idx aula))

/-- The `(course, day, idx, block)` iteration order of the extraction
loop. -/
def selTriples (ab : List ((String × String) × List (List Nat))) :
    List (String × String × Nat × List Nat) :=
  ab.flatMap (fun e => e.2.enum.map (fun q => (e.1.1, e.1.2, q.1, q.2)))

/-- The extraction loop; the boolean marks a `StopIteration` escape
(no room variable of a selected block solved to true), after which
`self.schedule` holds the entries accumulated so far. -/
def extractAux (courses : List (String × CourseInfo))
    (classrooms : List (String × Room)) (σ : Var → Bool) :
    List (String × String × Nat × List Nat) → List (String × List Entry) →
    Bool × List (String × List Entry)
  | [], acc => (false, acc)
  | (cid, day, idx, blk) :: rest, acc =>
    if σ (Var.sched cid day idx) then
      match pickAula courses classrooms σ cid day idx with
      | none => (true, acc)
      | some aula =>
        let info? := alist.get? courses cid
        let entry : Entry :=
          ⟨day, timeframe blk, (info?.map (·.teacher)).getD "", aula,
            (info?.bind (·.semester))⟩
        extractAux courses classrooms σ rest (smAdd acc cid entry)
    else extractAux courses classrooms σ rest acc

/-- The final `self.schedule` after `generate_schedule` ran with the
given solver verdict and assignment: empty whenever the validation
pre-check failed, an exception escaped, or the solver reported neither
OPTIMAL nor FEASIBLE. -/
def final_schedule (inp : Input) (status : SolverStatus) (σ : Var → Bool) :
    List (String × List Entry) :=
  match build_schedule_model inp with
  | .built m =>
    if status = .optimal ∨ status = .feasible then
      (extractAux inp.courses inp.classrooms σ (selTriples m.all_blocks) []).2
    else []
  | _ => []

/-- Sort key `(self.days.index(x['day']), x['hour'])` as a boolean
less-or-equal test. -/
def entryLE (a b : Entry) : Bool :=
  days.indexOf a.day < days.indexOf b.day ||
    (days.indexOf a.day == days.indexOf b.day && decide (a.hour ≤ b.hour))

/-- `ScheduleGenerator.get_schedule_json`. -/
def get_schedule_json (schedule : List (String × List Entry)) :
    List (String × List Entry) :=
  schedule.map (fun p =>
    (p.1, (p.2.mergeSort entryLE).map (fun s =>
      ⟨s.day, s.hour, s.teacher, s.classroom, s.semester⟩)))

/-! ### Specification-side descriptions (for refinement claims) -/

/-- `startsRun a k xs`: the first `k` entries of `xs` exist and each
differs from its predecessor by exactly 1, starting after `a`. -/
def startsRun : Nat → Nat → List Nat → Bool
  | _, 0, _ => true
  | _, _ + 1, [] => false
  | a, k + 1, x :: rest => x == a + 1 && startsRun x k rest

/-- Modelled from the spec's words on the Candidate Block Generator:
for each starting position of the list whose next `L - 1` entries each
differ from their predecessor by exactly 1, one block
`[a, a + 1, …, a + L - 1]` is emitted; overlapping runs from different
starting positions are all included. -/
def runBlocksSpec (l : List Nat) (L : Nat) : List (List Nat) :=
  (List.range l.length).filterMap (fun i =>
    match l.drop i with
    | [] => none
    | a :: rest =>
      if startsRun a (L - 1) rest then some ((List.range L).map (a + ·)) else none)

/-- Total selected length, in 30-minute slots, placed for one course
across all days of the candidate table. -/
def courseLoad (σ : Var → Bool) (ab : List ((String × String) × List (List Nat)))
    (cid : String) : Nat :=
  (days.flatMap (fun day =>
    (blocksAt ab cid day).enum.map (fun p =>
      if σ (Var.sched cid day p.1) then p.2.length else 0))).sum

/-- The schedule variables of one teacher's courses whose candidate
block covers a given slot on a given day. -/
def coveringVars (courses : List (String × CourseInfo))
    (ab : List ((String × String) × List (List Nat)))
    (t day : String) (slot : Nat) : List Var :=
  courses.flatMap (fun p =>
    if p.2.teacher = t then
      (blocksAt ab p.1 day).enum.filterMap (fun q =>
        if slot ∈ q.2 then some (Var.sched p.1 day q.1) else none)
    else [])

/-- The model built on an input, defaulting to the empty model when
`generate_schedule` stops before the solver. -/
def theModel (inp : Input) : BuiltModel :=
  match build_schedule_model inp with
  | .built m => m
  | _ => ⟨[], [], []⟩

/-! ### Concrete instances used as witnesses and counterexamples -/

/-- One teacher, one course of intensity 2, one compatible room. -/
def exA : Input :=
  { teacher_availabilities := [("T", [("Lunes", ["08:00-10:00"])])],
    courses := [("C1", ⟨2, "T", "normal", 20, none⟩)],
    classrooms := [("A1", ⟨"normal", 30⟩)] }

/-- A satisfying assignment for `exA`'s model. -/
def sigA : Var → Bool := fun v =>
  match v with
  | .sched "C1" "Lunes" 0 => true
  | .used "C1" "Lunes" => true
  | .room "C1" "Lunes" 0 "A1" => true
  | _ => false

/-- Availability reaching across the lunch window: candidate blocks
`[16,17,18,19]` and `[22,23,24,25]` for a course of intensity 2. -/
def exReserved : Input :=
  { teacher_availabilities := [("T", [("Lunes", ["08:00-10:00", "11:00-13:00"])])],
    courses := [("C1", ⟨2, "T", "normal", 20, none⟩)],
    classrooms := [("A1", ⟨"normal", 30⟩)] }

/-- A satisfying assignment for `exReserved`'s model: the morning block
is selected, the lunch-crossing block is not. -/
def sigReserved : Var → Bool := fun v =>
  match v with
  | .sched "C1" "Lunes" 0 => true
  | .used "C1" "Lunes" => true
  | .room "C1" "Lunes" 0 "A1" => true
  | _ => false

/-- A course whose teacher never appears in the availability mapping. -/
def exAbsent : Input :=
  { teacher_availabilities := [],
    courses := [("C1", ⟨2, "T", "normal", 10, none⟩)],
    classrooms := [("A1", ⟨"normal", 30⟩)] }

/-- A teacher declaring 1 hour but assigned 5 hours of courses. -/
def exOverload : Input :=
  { teacher_availabilities := [("T", [("Lunes", ["08:00-09:00"])])],
    courses := [("C1", ⟨5, "T", "normal", 10, none⟩)],
    classrooms := [("A1", ⟨"normal", 30⟩)] }

/-- A teacher declaring 1 hour, assigned 5 hours, and a course with no
compatible classroom at all. -/
def exOverloadNoRoom : Input :=
  { teacher_availabilities := [("T", [("Lunes", ["08:00-09:00"])])],
    courses := [("C1", ⟨5, "T", "lab", 10, none⟩)],
    classrooms := [] }

/-- A feasible teacher load but a course whose required room type
matches no classroom. -/
def exNoRoom : Input :=
  { teacher_availabilities := [("T", [("Lunes", ["08:00-10:00"])])],
    courses := [("C1", ⟨2, "T", "lab", 10, none⟩)],
    classrooms := [("A1", ⟨"normal", 30⟩)] }

/-- An availability range whose end precedes its start. -/
def avBackwards : RawAvail := [("T", [("Lunes", ["10:00-09:00"])])]

/-- An availability range with a non-parseable clock value. -/
def avGarbled : RawAvail := [("T", [("Lunes", ["08:00-xx:00"])])]

/-- Availability mapping naming only teacher `"S"`, while the courses
name the absent teacher `"T"` with positive intensity. -/
def avPresent : RawAvail := [("S", [("Lunes", ["08:00-10:00"])])]

/-- Course list whose single course is assigned to teacher `"T"`. -/
def crsAbsent : List (String × CourseInfo) := [("C1", ⟨2, "T", "normal", 10, none⟩)]

/-! ### Theorems -/

/-- C7: the partition policy is a pure function of the weekly duration:
intensity at or below 4 yields the single block `intensity * 2`;
intensity above 4 yields exactly the pair `[6, 4]`. -/
theorem c7_partition_policy (intensity : Nat) :
    (intensity ≤ 4 → block_sizes intensity = [intensity * 2]) ∧
    (4 < intensity → block_sizes intensity = [6, 4]) := by
  refine ⟨fun h => ?_, fun h => ?_⟩
  · rw [block_sizes, if_pos h]
  · rw [block_sizes, if_neg (by omega)]

/-- Witness for C7 at intensities 3 and 5. -/
theorem c7_partition_policy_witness :
    block_sizes 3 = [3 * 2] ∧ block_sizes 5 = [6, 4] :=
  ⟨(c7_partition_policy 3).1 (by decide), (c7_partition_policy 5).2 (by decide)⟩

/-- C9: whenever generation fails — the availability pre-check fails,
or the solver reports neither OPTIMAL nor FEASIBLE — the resulting
schedule is empty and `get_schedule_json` returns an empty mapping. -/
theorem c9_no_partial_schedule (inp : Input) (status : SolverStatus) (σ : Var → Bool)
    (h : (∃ t a b, build_schedule_model inp = .validationFailed t a b) ∨
         (status ≠ .optimal ∧ status ≠ .feasible)) :
    final_schedule inp status σ = [] ∧
    get_schedule_json (final_schedule inp status σ) = [] := by
  have hempty : final_schedule inp status σ = [] := by
    cases hbuild : build_schedule_model inp with
    | built m =>
      rcases h with ⟨t, a, b, hb⟩ | ⟨h1, h2⟩
      · rw [hbuild] at hb; simp at hb
      · simp [final_schedule, hbuild, h1, h2]
    | availCrash e => simp [final_schedule, hbuild]
    | validationFailed t a b => simp [final_schedule, hbuild]
    | noRoom c => simp [final_schedule, hbuild]
  exact ⟨hempty, by rw [hempty]; rfl⟩

/-- Witness for C9: an infeasible verdict on a well-formed instance. -/
theorem c9_no_partial_schedule_witness :
    final_schedule exOverload .infeasible (fun _ => false) = [] ∧
    get_schedule_json (final_schedule exOverload .infeasible (fun _ => false)) = [] :=
  c9_no_partial_schedule exOverload .infeasible (fun _ => false)
    (Or.inr ⟨by decide, by decide⟩)

/-- C10: the availability pre-check iterates only over the keys of the
teacher-availability mapping, so when every listed teacher passes the
load check it returns True even though some course's teacher is
entirely absent from the mapping with positive assigned load. -/
theorem c10_absent_teacher_never_fails (avails : RawAvail)
    (courses : List (String × CourseInfo))
    (h1 : ∀ p ∈ avails, ∃ h : Int,
        teacherAvailableHours p.1 p.2 days 0 = .ok h ∧
        (total_assigned_hours courses p.1 : Int) ≤ h)
    (h2 : ∃ p ∈ courses, alist.get? avails p.2.teacher = none ∧ 0 < p.2.intensity) :
    validate_teacher_availability courses avails = .ok none := by
  clear h2
  induction avails with
  | nil => rfl
  | cons hd tl ih =>
    obtain ⟨h, hok, hle⟩ := h1 hd (List.mem_cons_self hd tl)
    obtain ⟨t, av⟩ := hd
    simp only [validate_teacher_availability, hok]
    rw [if_neg (not_lt.mpr hle)]
    exact ih (fun p hp => h1 p (List.mem_cons_of_mem _ hp))

/-- Witness for C10: teacher `"S"` alone is listed and passes; course
teacher `"T"` is absent with positive load; validation returns True. -/
theorem c10_absent_teacher_never_fails_witness :
    validate_teacher_availability crsAbsent avPresent = .ok none :=
  c10_absent_teacher_never_fails avPresent crsAbsent
    (by
      intro p hp
      simp only [avPresent, List.mem_singleton] at hp
      subst hp
      exact ⟨2, rfl, by decide⟩)
    ⟨("C1", ⟨2, "T", "normal", 10, none⟩), by decide, rfl, by decide⟩

lemma validate_first_failure (courses : List (String × CourseInfo)) (avails : RawAvail)
    (hall : ∀ p ∈ avails, ∃ h : Int, teacherAvailableHours p.1 p.2 days 0 = .ok h)
    (hfail : ∃ p ∈ avails, ∃ h : Int,
        teacherAvailableHours p.1 p.2 days 0 = .ok h ∧
        h < (total_assigned_hours courses p.1 : Int)) :
    ∃ t a h, validate_teacher_availability courses avails = .ok (some (t, a, h)) ∧
      (∃ av, (t, av) ∈ avails ∧ teacherAvailableHours t av days 0 = .ok h) ∧
      total_assigned_hours courses t = a ∧ h < (a : Int) := by
  induction avails with
  | nil =>
    obtain ⟨p, hp, -⟩ := hfail
    exact absurd hp (List.not_mem_nil p)
  | cons hd tl ih =>
    obtain ⟨h, hok⟩ := hall hd (List.mem_cons_self hd tl)
    obtain ⟨t, av⟩ := hd
    by_cases hc : h < (total_assigned_hours courses t : Int)
    · refine ⟨t, total_assigned_hours courses t, h, ?_,
        ⟨av, List.mem_cons_self _ _, hok⟩, rfl, hc⟩
      simp only [validate_teacher_availability, hok]
      rw [if_pos hc]
    · have hfail' : ∃ p ∈ tl, ∃ h' : Int,
          teacherAvailableHours p.1 p.2 days 0 = .ok h' ∧
          h' < (total_assigned_hours courses p.1 : Int) := by
        obtain ⟨p, hp, h', hok', hlt'⟩ := hfail
        rcases List.mem_cons.mp hp with heq | hmem
        · subst heq
          rw [hok] at hok'
          injection hok' with hh
          subst hh
          exact absurd hlt' hc
        · exact ⟨p, hmem, h', hok', hlt'⟩
      obtain ⟨t', a', h', hval, ⟨av', hmem', hok''⟩, ha', hlt''⟩ :=
        ih (fun p hp => hall p (List.mem_cons_of_mem _ hp)) hfail'
      refine ⟨t', a', h', ?_, ⟨av', List.mem_cons_of_mem _ hmem', hok''⟩, ha', hlt''⟩
      simp only [validate_teacher_availability, hok]
      rw [if_neg hc]
      exact hval

/-- C4 (amended): for every teacher present in the availability
mapping whose total assigned load exceeds the availability that
`validate_teacher_availability` computes from the hour fields of the
declared ranges (minutes ignored), and whose availability strings all
survive the hour parsing, the request stops before model construction,
reporting a failing teacher together with the two quantities. -/
theorem c4_load_check_amended (inp : Input)
    (hall : ∀ p ∈ inp.teacher_availabilities, ∃ h : Int,
        teacherAvailableHours p.1 p.2 days 0 = .ok h)
    (hfail : ∃ p ∈ inp.teacher_availabilities, ∃ h : Int,
        teacherAvailableHours p.1 p.2 days 0 = .ok h ∧
        h < (total_assigned_hours inp.courses p.1 : Int)) :
    ∃ t a h, build_schedule_model inp = .validationFailed t a h ∧
      (∃ av, (t, av) ∈ inp.teacher_availabilities ∧
        teacherAvailableHours t av days 0 = .ok h) ∧
      total_assigned_hours inp.courses t = a ∧ h < (a : Int) := by
  obtain ⟨t, a, h, hval, hmem, ha, hlt⟩ :=
    validate_first_failure inp.courses inp.teacher_availabilities hall hfail
  refine ⟨t, a, h, ?_, hmem, ha, hlt⟩
  simp only [build_schedule_model, hval]

/-- C4 counterexample: teacher `"T"` has positive assigned load and is
entirely absent from the availability mapping (zero declared
availability), yet validation returns True and the model is built —
no ValidationError is ever reported. -/
theorem c4_load_check_counterexample :
    total_assigned_hours exAbsent.courses "T" = 2 ∧
    alist.get? exAbsent.teacher_availabilities "T" = none ∧
    validate_teacher_availability exAbsent.courses exAbsent.teacher_availabilities =
      .ok none ∧
    build_schedule_model exAbsent = .built (theModel exAbsent) :=
  ⟨rfl, rfl, rfl, rfl⟩

/-- Witness for the amended C4: one hour declared, five assigned. -/
theorem c4_load_check_amended_witness :
    build_schedule_model exOverload = .validationFailed "T" 5 1 := by
  obtain ⟨t, a, h, hb, ⟨av, hmem, hok⟩, ha, hlt⟩ :=
    c4_load_check_amended exOverload
      (by
        intro p hp
        simp only [exOverload, List.mem_singleton] at hp
        subst hp
        exact ⟨1, rfl⟩)
      ⟨("T", [("Lunes", ["08:00-09:00"])]), by decide, 1, rfl, by decide⟩
  simp only [exOverload, List.mem_singleton, Prod.mk.injEq] at hmem
  obtain ⟨ht, hav⟩ := hmem
  subst ht
  subst hav
  have hh : teacherAvailableHours "T" [("Lunes", ["08:00-09:00"])] days 0 =
      Except.ok (1 : Int) := rfl
  rw [hok] at hh
  injection hh with hh
  subst hh
  have ha5 : total_assigned_hours exOverload.courses "T" = 5 := rfl
  rw [ha] at ha5
  subst ha5
  exact hb

lemma buildBlocks_first_noroom (classrooms : List (String × Room))
    (parsed : ParsedAvail) (courses : List (String × CourseInfo))
    (hfail : ∃ p ∈ courses, aulas_compatibles classrooms p.2 = []) :
    ∃ cid, buildBlocksAux classrooms parsed courses = .error cid ∧
      ∃ info, (cid, info) ∈ courses ∧ aulas_compatibles classrooms info = [] := by
  induction courses with
  | nil =>
    obtain ⟨p, hp, -⟩ := hfail
    exact absurd hp (List.not_mem_nil p)
  | cons hd tl ih =>
    obtain ⟨cid, info⟩ := hd
    by_cases hr : aulas_compatibles classrooms info = []
    · refine ⟨cid, ?_, info, List.mem_cons_self _ _, hr⟩
      simp only [buildBlocksAux]
      rw [if_pos hr]
    · have hfail' : ∃ p ∈ tl, aulas_compatibles classrooms p.2 = [] := by
        obtain ⟨p, hp, hpr⟩ := hfail
        rcases List.mem_cons.mp hp with heq | hmem
        · subst heq
          exact absurd hpr hr
        · exact ⟨p, hmem, hpr⟩
      obtain ⟨cid', hval, info', hmem', hr'⟩ := ih hfail'
      refine ⟨cid', ?_, info', List.mem_cons_of_mem _ hmem', hr'⟩
      simp only [buildBlocksAux, hval]
      rw [if_neg hr]

/-- C3 (amended): provided the teacher-load pre-check passes and the
availability strings normalize, an input containing a course with zero
compatible rooms makes `generate_schedule` raise the no-compatible-room
error, naming a course that indeed has no compatible room, before any
model is produced or the solver invoked. -/
theorem c3_no_room_amended (inp : Input)
    (hv : validate_teacher_availability inp.courses inp.teacher_availabilities = .ok none)
    (hp : ∃ parsed, parse_availability inp.teacher_availabilities = .ok parsed)
    (hr : ∃ p ∈ inp.courses, aulas_compatibles inp.classrooms p.2 = []) :
    ∃ cid, build_schedule_model inp = .noRoom cid ∧
      ∃ info, (cid, info) ∈ inp.courses ∧ aulas_compatibles inp.classrooms info = [] := by
  obtain ⟨parsed, hpeq⟩ := hp
  obtain ⟨cid, herr, info, hmem, hroom⟩ :=
    buildBlocks_first_noroom inp.classrooms parsed inp.courses hr
  refine ⟨cid, ?_, info, hmem, hroom⟩
  simp only [build_schedule_model, hv, hpeq, herr]

/-- C3 counterexample: course `"C1"` has zero compatible rooms, but the
teacher-load pre-check fails first and `generate_schedule` returns
silently — no error naming the course is raised. -/
theorem c3_no_room_counterexample :
    alist.get? exOverloadNoRoom.courses "C1" = some ⟨5, "T", "lab", 10, none⟩ ∧
    aulas_compatibles exOverloadNoRoom.classrooms ⟨5, "T", "lab", 10, none⟩ = [] ∧
    build_schedule_model exOverloadNoRoom = .validationFailed "T" 5 1 :=
  ⟨rfl, rfl, rfl⟩

/-- Witness for the amended C3: a course requiring a room type no
classroom offers. -/
theorem c3_no_room_amended_witness :
    build_schedule_model exNoRoom = .noRoom "C1" := by
  obtain ⟨cid, hb, info, hmem, -⟩ :=
    c3_no_room_amended exNoRoom rfl
      ⟨[("T", [("Lunes", [16, 17, 18, 19])])], rfl⟩
      ⟨("C1", ⟨2, "T", "lab", 10, none⟩), by decide, rfl⟩
  simp only [exNoRoom, List.mem_singleton, Prod.mk.injEq] at hmem
  obtain ⟨hcid, -⟩ := hmem
  subst hcid
  exact hb

lemma parseDaySlots_ok_all {t d : String} {sl : List String} :
    ∀ {acc r}, parseDaySlots t d sl acc = .ok r → ∀ s ∈ sl, parseSlotRange s ≠ none := by
  induction sl with
  | nil => intro acc r _ s hs; exact absurd hs (List.not_mem_nil s)
  | cons s0 rest ih =>
    intro acc r hok s hs
    rcases hrange : parseSlotRange s0 with - | idxs
    · rw [parseDaySlots, hrange] at hok
      exact absurd hok (by simp)
    · rw [parseDaySlots, hrange] at hok
      rcases List.mem_cons.mp hs with heq | hmem
      · subst heq
        rw [hrange]
        exact Option.noConfusion
      · exact ih hok s hmem

lemma parseDaySlots_fails {t d : String} {sl : List String} :
    ∀ {acc}, (∃ s ∈ sl, parseSlotRange s = none) →
      parseDaySlots t d sl acc = .error .valueError := by
  induction sl with
  | nil =>
    intro acc h
    obtain ⟨s, hs, -⟩ := h
    exact absurd hs (List.not_mem_nil s)
  | cons s0 rest ih =>
    intro acc h
    rcases hrange : parseSlotRange s0 with - | idxs
    · rw [parseDaySlots, hrange]
    · rw [parseDaySlots, hrange]
      refine ih ?_
      obtain ⟨s, hs, hsbad⟩ := h
      rcases List.mem_cons.mp hs with heq | hmem
      · subst heq
        rw [hrange] at hsbad
        exact absurd hsbad (by simp)
      · exact ⟨s, hmem, hsbad⟩

lemma parseTeacherDays_ok_all {t : String} {dl : List (String × List String)} {r} :
    parseTeacherDays t dl = .ok r → ∀ q ∈ dl, ∀ s ∈ q.2, parseSlotRange s ≠ none := by
  induction dl generalizing r with
  | nil => intro _ q hq; exact absurd hq (List.not_mem_nil q)
  | cons hd rest ih =>
    obtain ⟨d0, sl0⟩ := hd
    intro hok q hq s hs
    rcases hday : parseDaySlots t d0 sl0 [] with e | idxs
    · rw [parseTeacherDays, hday] at hok
      exact absurd hok (by simp)
    · rw [parseTeacherDays, hday] at hok
      rcases htail : parseTeacherDays t rest with e | tail
      · rw [htail] at hok
        exact absurd hok (by simp)
      · rcases List.mem_cons.mp hq with heq | hmem
        · subst heq
          exact parseDaySlots_ok_all hday s hs
        · exact ih htail q hmem s hs

lemma parseTeacherDays_fails {t : String} {dl : List (String × List String)} :
    (∃ q ∈ dl, ∃ s ∈ q.2, parseSlotRange s = none) →
      parseTeacherDays t dl = .error .valueError := by
  induction dl with
  | nil =>
    intro h
    obtain ⟨q, hq, -⟩ := h
    exact absurd hq (List.not_mem_nil q)
  | cons hd rest ih =>
    obtain ⟨d0, sl0⟩ := hd
    intro h
    rcases hday : parseDaySlots t d0 sl0 [] with e | idxs
    · rw [parseTeacherDays, hday]
    · rw [parseTeacherDays, hday]
      have hrest : ∃ q ∈ rest, ∃ s ∈ q.2, parseSlotRange s = none := by
        obtain ⟨q, hq, s, hs, hbad⟩ := h
        rcases List.mem_cons.mp hq with heq | hmem
        · subst heq
          exact absurd hbad (parseDaySlots_ok_all hday s hs)
        · exact ⟨q, hmem, s, hs, hbad⟩
      rw [ih hrest]

lemma parse_availability_fails {av : RawAvail} :
    (∃ tp ∈ av, ∃ q ∈ tp.2, ∃ s ∈ q.2, parseSlotRange s = none) →
      parse_availability av = .error .valueError := by
  induction av with
  | nil =>
    intro h
    obtain ⟨tp, htp, -⟩ := h
    exact absurd htp (List.not_mem_nil tp)
  | cons hd rest ih =>
    obtain ⟨t0, dl0⟩ := hd
    intro h
    rcases hdays : parseTeacherDays t0 dl0 with e | pds
    · rw [parse_availability, hdays]
    · rw [parse_availability, hdays]
      have hrest : ∃ tp ∈ rest, ∃ q ∈ tp.2, ∃ s ∈ q.2, parseSlotRange s = none := by
        obtain ⟨tp, htp, q, hq, s, hs, hbad⟩ := h
        rcases List.mem_cons.mp htp with heq | hmem
        · subst heq
          exact absurd hbad (parseTeacherDays_ok_all hdays q hq s hs)
        · exact ⟨tp, hmem, q, hq, s, hs, hbad⟩
      rw [ih hrest]

/-- C5 (amended): for availability strings in the ASCII range (where
this model of `int()` is exact), a range string whose parsing fails —
a split of the wrong arity or a clock value `int()` rejects — makes
`parse_availability` abort the whole request with the propagated
`ValueError`; no such string is silently skipped, and no partial
normalization is produced.  The exception is unstructured: it
identifies neither the teacher nor the day.  (Ranges whose end is at
or before their start are not such failures: they parse, to an empty
slot contribution — see the counterexample.) -/
theorem c5_malformed_amended (av : RawAvail) (t d s : String)
    (hascii : ∀ c ∈ s.data, c.toNat < 128)
    (hin : ∃ dl, (t, dl) ∈ av ∧ ∃ sl, (d, sl) ∈ dl ∧ s ∈ sl)
    (hbad : parseSlotRange s = none) :
    parse_availability av = .error .valueError := by
  obtain ⟨dl, hdl, sl, hsl, hs⟩ := hin
  exact parse_availability_fails ⟨(t, dl), hdl, (d, sl), hsl, s, hs, hbad⟩

/-- C5 counterexample: the range `"10:00-09:00"` (end before start) is
not rejected — normalization succeeds and silently turns it into an
empty slot set. -/
theorem c5_malformed_counterexample :
    parseSlotRange "10:00-09:00" = some [] ∧
    parse_availability avBackwards = .ok [("T", [("Lunes", [])])] :=
  ⟨rfl, rfl⟩

/-- Witness for the amended C5: a garbled clock value aborts the whole
request with the propagated exception. -/
theorem c5_malformed_amended_witness :
    parse_availability avGarbled = .error .valueError :=
  c5_malformed_amended avGarbled "T" "Lunes" "08:00-xx:00" (by decide)
    ⟨[("Lunes", ["08:00-xx:00"])], by decide, ["08:00-xx:00"], by decide, by decide⟩
    rfl

lemma rangeMap_getLast (a m : Nat) (hm : 0 < m) :
    ((List.range m).map (a + ·)).getLast? = some (a + (m - 1)) := by
  obtain ⟨k, rfl⟩ : ∃ k, m = k + 1 := ⟨m - 1, by omega⟩
  rw [List.range_succ, List.map_append]
  simp

lemma rangeMap_concat (a m : Nat) :
    (List.range m).map (a + ·) ++ [a + m] = (List.range (m + 1)).map (a + ·) := by
  rw [List.range_succ, List.map_append]
  rfl

lemma extendBlock_run (L : Nat) (rest : List Nat) :
    ∀ a m : Nat, 0 < m → m < L →
      extendBlock L ((List.range m).map (a + ·)) rest =
        (if startsRun (a + (m - 1)) (L - m) rest then
          some ((List.range L).map (a + ·)) else none) := by
  induction rest with
  | nil =>
    intro a m hm hmL
    obtain ⟨k, hk⟩ : ∃ k, L - m = k + 1 := ⟨L - m - 1, by omega⟩
    rw [hk]
    simp [extendBlock, startsRun]
  | cons x rs ih =>
    intro a m hm hmL
    simp only [extendBlock, rangeMap_getLast a m hm]
    by_cases hx : x = a + (m - 1) + 1
    · rw [if_pos hx]
      rw [show ((List.range m).map (a + ·) ++ [x]) = (List.range (m + 1)).map (a + ·) by
        rw [hx, show a + (m - 1) + 1 = a + m by omega, rangeMap_concat]]
      rw [List.length_map, List.length_range]
      by_cases hL : m + 1 = L
      · rw [if_pos hL]
        rw [show L - m = 0 + 1 by omega]
        simp only [startsRun]
        rw [if_pos (show ((x == a + (m - 1) + 1) && true) = true by simp [hx])]
        rw [hL]
      · have hlt : m + 1 < L := by omega
        rw [if_neg hL]
        rw [ih a (m + 1) (by omega) hlt]
        rw [show L - m = (L - (m + 1)) + 1 by omega]
        simp only [startsRun]
        refine if_congr ?_ rfl rfl
        rw [show a + (m + 1 - 1) = a + (m - 1) + 1 by omega, hx]
        simp
    · rw [if_neg hx]
      obtain ⟨k, hk⟩ : ∃ k, L - m = k + 1 := ⟨L - m - 1, by omega⟩
      rw [hk]
      simp only [startsRun]
      rw [if_neg (show ¬((x == a + (m - 1) + 1) && startsRun x k rs) = true by simp [hx])]

lemma extendBlock_start (L : Nat) (hL : 1 ≤ L) (xs : List Nat) :
    extendBlock L [] xs =
      (match xs with
      | [] => none
      | a :: rest =>
        if startsRun a (L - 1) rest then some ((List.range L).map (a + ·)) else none) := by
  cases xs with
  | nil => rfl
  | cons a rest =>
    simp only [extendBlock, List.getLast?_nil, List.nil_append, List.length_singleton]
    rcases Nat.lt_or_ge 1 L with hlt | hge
    · rw [if_neg (by omega)]
      rw [show ([a] : List Nat) = (List.range 1).map (a + ·) by simp [List.range_succ]]
      rw [extendBlock_run L rest a 1 (by omega) hlt]
      simp
    · have hL1 : L = 1 := by omega
      subst hL1
      rw [if_pos rfl]
      rw [if_pos (show startsRun a (1 - 1) rest = true from rfl)]
      simp [List.range_succ]

/-- C6: for block length `L ≥ 1` on a sorted strictly increasing slot
list, `generate_possible_time_blocks` returns exactly one block
`[a, a+1, …, a+L-1]` for each starting position whose next `L - 1`
entries each differ from their predecessor by exactly 1 (overlapping
runs all included), and every returned block has length exactly `L`. -/
theorem c6_block_generator (l : List Nat) (L : Nat) (hL : 1 ≤ L)
    (hsorted : l.Chain' (· < ·)) :
    generate_possible_time_blocks l L = runBlocksSpec l L ∧
    ∀ b ∈ generate_possible_time_blocks l L, b.length = L := by
  have hmain : generate_possible_time_blocks l L = runBlocksSpec l L := by
    unfold generate_possible_time_blocks runBlocksSpec
    congr 1
    funext i
    exact extendBlock_start L hL (l.drop i)
  refine ⟨hmain, fun b hb => ?_⟩
  rw [hmain] at hb
  unfold runBlocksSpec at hb
  rw [List.mem_filterMap] at hb
  obtain ⟨i, -, hi⟩ := hb
  rcases hdrop : l.drop i with - | ⟨a, rest⟩
  · rw [hdrop] at hi
    simp at hi
  · rw [hdrop] at hi
    have hi' : (if startsRun a (L - 1) rest then
        some ((List.range L).map (a + ·)) else none) = some b := hi
    by_cases hsr : startsRun a (L - 1) rest
    · rw [if_pos hsr] at hi'
      injection hi' with hi'
      rw [← hi', List.length_map, List.length_range]
    · rw [if_neg hsr] at hi'
      exact absurd hi' (by simp)

/-- Witness for C6 on the list `[3, 4, 5, 7, 8]` with `L = 2`. -/
theorem c6_block_generator_witness :
    generate_possible_time_blocks [3, 4, 5, 7, 8] 2 = runBlocksSpec [3, 4, 5, 7, 8] 2 ∧
    ([3, 4] : List Nat).length = 2 :=
  ⟨(c6_block_generator [3, 4, 5, 7, 8] 2 (by decide) (by simp [List.chain'_cons])).1,
   (c6_block_generator [3, 4, 5, 7, 8] 2 (by decide) (by simp [List.chain'_cons])).2
     [3, 4] (by decide)⟩

lemma build_built_inv {inp : Input} {m : BuiltModel}
    (h : build_schedule_model inp = .built m) :
    ∃ parsed ab,
      parse_availability inp.teacher_availabilities = .ok parsed ∧
      buildBlocksAux inp.classrooms parsed inp.courses = .ok ab ∧
      m.parsed = parsed ∧ m.all_blocks = ab ∧
      m.constraints = allConstraints inp.courses inp.classrooms parsed ab := by
  unfold build_schedule_model at h
  split at h
  · exact absurd h (by simp)
  · exact absurd h (by simp)
  · split at h
    · exact absurd h (by simp)
    · rename_i parsed hp
      split at h
      · exact absurd h (by simp)
      · rename_i ab hb
        injection h with h
        exact ⟨parsed, ab, hp, hb, by rw [← h], by rw [← h], by rw [← h]⟩

lemma evalSum_cons (σ : Var → Bool) (t : Nat × Var) (ts : List (Nat × Var)) :
    evalSum σ (t :: ts) = t.1 * boolVal σ t.2 + evalSum σ ts := by
  simp [evalSum]

lemma evalSum_append (σ : Var → Bool) (l1 l2 : List (Nat × Var)) :
    evalSum σ (l1 ++ l2) = evalSum σ l1 + evalSum σ l2 := by
  simp [evalSum]

lemma evalSum_map_pair {α : Type} (σ : Var → Bool) (l : List α)
    (g : α → Nat) (hv : α → Var) :
    evalSum σ (l.map (fun x => (g x, hv x))) =
      (l.map (fun x => if σ (hv x) then g x else 0)).sum := by
  induction l with
  | nil => rfl
  | cons x xs ih =>
    rw [List.map_cons, evalSum_cons, ih, List.map_cons, List.sum_cons]
    by_cases h : σ (hv x) <;> simp [boolVal, h]

lemma evalSum_flatMap {α : Type} (σ : Var → Bool) (l : List α)
    (f : α → List (Nat × Var)) :
    evalSum σ (l.flatMap f) = (l.map (fun a => evalSum σ (f a))).sum := by
  induction l with
  | nil => rfl
  | cons x xs ih => simp [List.flatMap_cons, evalSum_append, ih]

lemma sum_flatMap_nat {α : Type} (l : List α) (f : α → List Nat) :
    (l.flatMap f).sum = (l.map (fun a => (f a).sum)).sum := by
  induction l with
  | nil => rfl
  | cons x xs ih => simp [List.flatMap_cons, ih]

lemma courseLoad_eq (σ : Var → Bool) (ab : List ((String × String) × List (List Nat)))
    (cid : String) : courseLoad σ ab cid = evalSum σ (covTerms ab cid) := by
  unfold courseLoad covTerms
  rw [evalSum_flatMap, sum_flatMap_nat]
  congr 1
  refine List.map_congr_left (fun day _ => ?_)
  exact (evalSum_map_pair σ ((blocksAt ab cid day).enum)
    (fun p => p.2.length) (fun p => Var.sched cid day p.1)).symm

/-- C1: in every accepted solution of the built constraint model, the
sum over a course's selected candidates (indicator × block length in
30-minute slots) across all days equals exactly `intensity * 2`. -/
theorem c1_coverage_exact (inp : Input) (m : BuiltModel) (σ : Var → Bool)
    (hb : build_schedule_model inp = .built m) (hs : Satisfies σ m.constraints) :
    ∀ p ∈ inp.courses, courseLoad σ m.all_blocks p.1 = p.2.intensity * 2 := by
  intro p hp
  obtain ⟨parsed, ab, -, -, -, hab, hcons⟩ := build_built_inv hb
  have hc : Constr.eqC (covTerms ab p.1) (p.2.intensity * 2) ∈ m.constraints := by
    rw [hcons]
    have hmem : Constr.eqC (covTerms ab p.1) (p.2.intensity * 2) ∈
        coverageCons ab inp.courses := List.mem_map_of_mem _ hp
    simp only [allConstraints, List.mem_append]
    tauto
  have hh := hs _ hc
  simp only [holdsCon] at hh
  rw [hab, courseLoad_eq]
  exact hh

/-- Witness for C1 on the single-course instance `exA`. -/
theorem c1_coverage_exact_witness :
    courseLoad sigA (theModel exA).all_blocks "C1" = 2 * 2 :=
  c1_coverage_exact exA (theModel exA) sigA rfl (by decide)
    ("C1", ⟨2, "T", "normal", 20, none⟩) (by decide)

lemma alist_get?_mem {κ α : Type} [DecidableEq κ] {m : List (κ × α)} {k : κ} {v : α}
    (h : alist.get? m k = some v) : (k, v) ∈ m := by
  unfold alist.get? at h
  rcases hf : m.find? (fun p => p.1 = k) with - | e
  · rw [hf] at h
    exact absurd h (by simp)
  · rw [hf] at h
    simp only [Option.map_some'] at h
    have hm := List.mem_of_find?_eq_some hf
    have hk := List.find?_some hf
    obtain ⟨k', v'⟩ := e
    simp only at hk h
    have hkk : k' = k := of_decide_eq_true hk
    subst hkk
    injection h with h
    subst h
    exact hm

lemma enumFrom_mem_of_get? {α : Type} :
    ∀ (l : List α) (n i : Nat) (a : α), l.get? i = some a → (n + i, a) ∈ l.enumFrom n := by
  intro l
  induction l with
  | nil => intro n i a h; exact absurd h (by simp)
  | cons x xs ih =>
    intro n i a h
    cases i with
    | zero =>
      injection h with h
      subst h
      simp [List.enumFrom_cons]
    | succ j =>
      have := ih (n + 1) j a h
      rw [List.enumFrom_cons]
      refine List.mem_cons_of_mem _ ?_
      rw [show n + (j + 1) = n + 1 + j by omega]
      exact this

lemma enum_mem_of_get? {α : Type} {l : List α} {i : Nat} {a : α}
    (h : l.get? i = some a) : (i, a) ∈ l.enum := by
  have := enumFrom_mem_of_get? l 0 i a h
  rw [Nat.zero_add] at this
  exact this

/-- C8: every candidate block intersecting the reserved lunch slots
(24 and 25) has its decision variable fixed to false, so in every
accepted solution no selected block covers a reserved slot. -/
theorem c8_reserved_slots (inp : Input) (m : BuiltModel) (σ : Var → Bool)
    (hb : build_schedule_model inp = .built m) (hs : Satisfies σ m.constraints) :
    ∀ cid day idx blk, (blocksAt m.all_blocks cid day).get? idx = some blk →
      (∃ s ∈ blk, s = 24 ∨ s = 25) → σ (Var.sched cid day idx) = false := by
  intro cid day idx blk hget hres
  obtain ⟨parsed, ab, -, -, -, hab, hcons⟩ := build_built_inv hb
  rw [hab] at hget
  have hblocks : ∃ blks, alist.get? ab (cid, day) = some blks ∧ blks.get? idx = some blk := by
    unfold blocksAt at hget
    rcases hq : alist.get? ab (cid, day) with - | blks
    · rw [hq] at hget
      exact absurd hget (by simp)
    · rw [hq] at hget
      exact ⟨blks, rfl, hget⟩
  obtain ⟨blks, hq, hidx⟩ := hblocks
  have hmem : ((cid, day), blks) ∈ ab := alist_get?_mem hq
  have hc : Constr.eqC [(1, Var.sched cid day idx)] 0 ∈ m.constraints := by
    rw [hcons]
    have hr : Constr.eqC [(1, Var.sched cid day idx)] 0 ∈ reservedCons ab := by
      unfold reservedCons
      rw [List.mem_flatMap]
      refine ⟨((cid, day), blks), hmem, ?_⟩
      rw [List.mem_filterMap]
      refine ⟨(idx, blk), enum_mem_of_get? hidx, ?_⟩
      rw [if_pos ?_]
      · obtain ⟨s, hsm, hor⟩ := hres
        refine List.any_eq_true.mpr ⟨s, hsm, ?_⟩
        rcases hor with h | h <;> simp [h]
    have := hr
    simp only [allConstraints, List.mem_append]
    tauto
  have hh := hs _ hc
  simp only [holdsCon, evalSum, List.map_cons, List.map_nil, List.sum_cons,
    List.sum_nil, boolVal] at hh
  cases hcase : σ (Var.sched cid day idx) with
  | true => rw [hcase] at hh; simp at hh
  | false => rfl

/-- Witness for C8: the lunch-crossing candidate of `exReserved` is
forced off in the accepted assignment `sigReserved`. -/
theorem c8_reserved_slots_witness :
    sigReserved (Var.sched "C1" "Lunes" 1) = false :=
  c8_reserved_slots exReserved (theModel exReserved) sigReserved rfl (by decide)
    "C1" "Lunes" 1 [22, 23, 24, 25] (by decide) ⟨24, by decide, Or.inl rfl⟩

/-- Lookup in a slot map, defaulting to the empty list. -/
def lookupL {κ β : Type} [DecidableEq κ] (m : List (κ × List β)) (k : κ) : List β :=
  ((m.find? (fun p => p.1 = k)).map (·.2)).getD []

lemma lookupL_cons {κ β : Type} [DecidableEq κ] (a : κ) (b : List β)
    (l : List (κ × List β)) (k : κ) :
    lookupL ((a, b) :: l) k = if a = k then b else lookupL l k := by
  unfold lookupL
  by_cases h : a = k
  · rw [List.find?_cons_of_pos _ (by simp [h])]
    simp [h]
  · rw [List.find?_cons_of_neg _ (by simp [h])]
    rw [if_neg h]

lemma lookupL_smAdd {κ β : Type} [DecidableEq κ] (m : List (κ × List β))
    (k k' : κ) (v : β) :
    lookupL (smAdd m k v) k' =
      if k' = k then lookupL m k' ++ [v] else lookupL m k' := by
  induction m with
  | nil =>
    show lookupL [(k, [v])] k' = _
    rw [lookupL_cons]
    by_cases h : k' = k
    · rw [if_pos (show k = k' from h.symm), if_pos h]
      rfl
    · rw [if_neg (fun hh => h hh.symm), if_neg h]
  | cons e rest ih =>
    obtain ⟨s, vs⟩ := e
    by_cases hsk : s = k
    · show lookupL (if s = k then (s, vs ++ [v]) :: rest else _) k' = _
      rw [if_pos hsk, lookupL_cons, lookupL_cons]
      by_cases hk's : s = k'
      · rw [if_pos hk's, if_pos hk's, if_pos (by rw [← hk's, hsk])]
      · rw [if_neg hk's, if_neg hk's]
        by_cases hkk : k' = k
        · exact absurd (hsk.trans hkk.symm) hk's
        · rw [if_neg hkk]
    · show lookupL (if s = k then _ else (s, vs) :: smAdd rest k v) k' = _
      rw [if_neg hsk, lookupL_cons, lookupL_cons]
      by_cases hk's : s = k'
      · rw [if_pos hk's, if_pos hk's,
          if_neg (show ¬k' = k from fun hh => hsk (hk's.trans hh))]
      · rw [if_neg hk's, if_neg hk's, ih]

lemma lookupL_foldl {κ β : Type} [DecidableEq κ] (es : List (κ × β)) :
    ∀ (m : List (κ × List β)) (k : κ),
      lookupL (es.foldl (fun m e => smAdd m e.1 e.2) m) k =
        lookupL m k ++ ((es.filter (fun e => e.1 = k)).map (·.2)) := by
  induction es with
  | nil => intro m k; simp
  | cons e es ih =>
    intro m k
    rw [List.foldl_cons, ih, lookupL_smAdd, List.filter_cons]
    by_cases h : e.1 = k
    · simp [h, List.append_assoc]
    · simp [h, Ne.symm h]

lemma slotMapOf_lookup {κ β : Type} [DecidableEq κ] (es : List (κ × β)) (k : κ) :
    lookupL (slotMapOf es) k = ((es.filter (fun e => e.1 = k)).map (·.2)) := by
  unfold slotMapOf
  rw [lookupL_foldl]
  rfl

lemma lookupL_mem {κ β : Type} [DecidableEq κ] (m : List (κ × List β)) (k : κ)
    (h : lookupL m k ≠ []) : (k, lookupL m k) ∈ m := by
  unfold lookupL at h ⊢
  rcases hf : m.find? (fun p => p.1 = k) with - | e
  · rw [hf] at h
    exact absurd rfl h
  · rw [hf]
    have hm := List.mem_of_find?_eq_some hf
    have hk := List.find?_some hf
    obtain ⟨k', vs⟩ := e
    simp only at hk
    have hkk : k' = k := of_decide_eq_true hk
    subst hkk
    exact hm

lemma filter_flatMap' {α β : Type} (l : List α) (f : α → List β) (p : β → Bool) :
    (l.flatMap f).filter p = l.flatMap (fun a => (f a).filter p) := by
  induction l with
  | nil => rfl
  | cons x xs ih => simp [List.flatMap_cons, List.filter_append, ih]

lemma map_flatMap' {α β γ : Type} (l : List α) (f : α → List β) (g : β → γ) :
    (l.flatMap f).map g = l.flatMap (fun a => (f a).map g) := by
  induction l with
  | nil => rfl
  | cons x xs ih => simp [List.flatMap_cons, List.map_append, ih]

lemma flatMap_congr_mem {α β : Type} {l : List α} {f g : α → List β}
    (h : ∀ a ∈ l, f a = g a) : l.flatMap f = l.flatMap g := by
  induction l with
  | nil => rfl
  | cons x xs ih =>
    rw [List.flatMap_cons, List.flatMap_cons, h x (List.mem_cons_self x xs),
      ih (fun a ha => h a (List.mem_cons_of_mem _ ha))]

lemma flatMap_toList_filterMap {α β : Type} (l : List α) (f : α → Option β) :
    l.flatMap (fun a => (f a).toList) = l.filterMap f := by
  induction l with
  | nil => rfl
  | cons x xs ih =>
    cases hf : f x <;> simp [List.flatMap_cons, hf, ih, List.filterMap_cons]

lemma snd_mem_of_mem_enumFrom {α : Type} :
    ∀ {l : List α} {n : Nat} {q : Nat × α}, q ∈ l.enumFrom n → q.2 ∈ l := by
  intro l
  induction l with
  | nil => intro n q h; exact absurd h (by simp)
  | cons x xs ih =>
    intro n q h
    rw [List.enumFrom_cons] at h
    rcases List.mem_cons.mp h with heq | hmem
    · subst heq
      exact List.mem_cons_self _ _
    · exact List.mem_cons_of_mem _ (ih hmem)

lemma snd_mem_of_mem_enum {α : Type} {l : List α} {q : Nat × α}
    (h : q ∈ l.enum) : q.2 ∈ l :=
  snd_mem_of_mem_enumFrom h

lemma filter_eq_of_nodup {l : List Nat} (hnd : l.Nodup) (s : Nat) :
    l.filter (fun x => x = s) = if s ∈ l then [s] else [] := by
  induction l with
  | nil => simp
  | cons x xs ih =>
    rw [List.filter_cons]
    rcases List.nodup_cons.mp hnd with ⟨hx, hnd'⟩
    by_cases hxs : x = s
    · subst hxs
      rw [if_pos (by simp), ih hnd', if_neg hx, if_pos (List.mem_cons_self x xs)]
    · rw [if_neg (by simp [hxs]), ih hnd']
      by_cases hmem : s ∈ xs
      · rw [if_pos hmem, if_pos (List.mem_cons_of_mem _ hmem)]
      · rw [if_neg hmem, if_neg (show s ∉ x :: xs from by
          rw [List.mem_cons]
          rintro (h | h)
          · exact hxs h.symm
          · exact hmem h)]

lemma extendBlock_zero : ∀ (acc xs : List Nat), extendBlock 0 acc xs = none := by
  intro acc xs
  induction xs generalizing acc with
  | nil => rfl
  | cons x rest ih =>
    rcases h : acc.getLast? with - | last
    · simp only [extendBlock, h]
      rw [if_neg (by simp)]
      exact ih _
    · simp only [extendBlock, h]
      by_cases hx : x = last + 1
      · rw [if_pos hx, if_neg (by simp)]
        exact ih _
      · rw [if_neg hx]

lemma gptb_shape {l : List Nat} {L : Nat} {b : List Nat}
    (hb : b ∈ generate_possible_time_blocks l L) :
    ∃ a, b = (List.range L).map (a + ·) := by
  rcases Nat.eq_zero_or_pos L with h0 | hpos
  · subst h0
    exfalso
    unfold generate_possible_time_blocks at hb
    rw [List.mem_filterMap] at hb
    obtain ⟨i, -, hi⟩ := hb
    rw [extendBlock_zero] at hi
    exact Option.noConfusion hi
  · unfold generate_possible_time_blocks at hb
    rw [List.mem_filterMap] at hb
    obtain ⟨i, -, hi⟩ := hb
    rw [extendBlock_start L hpos] at hi
    rcases hdrop : l.drop i with - | ⟨a, rest⟩ <;> rw [hdrop] at hi
    · exact absurd hi (by simp)
    · have hi' : (if startsRun a (L - 1) rest then
          some ((List.range L).map (a + ·)) else none) = some b := hi
      by_cases hsr : startsRun a (L - 1) rest
      · rw [if_pos hsr] at hi'
        injection hi' with hi'
        exact ⟨a, hi'.symm⟩
      · rw [if_neg hsr] at hi'
        exact absurd hi' (by simp)

lemma courseBlocks_mem {parsed : ParsedAvail} {cid : String} {info : CourseInfo}
    {e : (String × String) × List (List Nat)} (h : e ∈ courseBlocks parsed cid info) :
    ∃ day ∈ days, availOf parsed info.teacher day ≠ [] ∧
      e = ((cid, day), (block_sizes info.intensity).flatMap
        (fun bs => generate_possible_time_blocks (availOf parsed info.teacher day) bs)) := by
  unfold courseBlocks at h
  rw [List.mem_filterMap] at h
  obtain ⟨day, hday, hsome⟩ := h
  by_cases hav : availOf parsed info.teacher day = []
  · rw [if_pos hav] at hsome
    exact absurd hsome (by simp)
  · rw [if_neg hav] at hsome
    by_cases hposs : (block_sizes info.intensity).flatMap
        (fun bs => generate_possible_time_blocks (availOf parsed info.teacher day) bs) = []
    · rw [if_pos hposs] at hsome
      exact absurd hsome (by simp)
    · rw [if_neg hposs] at hsome
      injection hsome with hsome
      exact ⟨day, hday, hav, hsome.symm⟩

lemma ab_blocks {cls : List (String × Room)} {parsed : ParsedAvail}
    {courses : List (String × CourseInfo)}
    {ab : List ((String × String) × List (List Nat))}
    (hok : buildBlocksAux cls parsed courses = .ok ab) :
    ∀ e ∈ ab, ∃ info, (e.1.1, info) ∈ courses ∧ e.1.2 ∈ days ∧
      availOf parsed info.teacher e.1.2 ≠ [] ∧
      e.2 = (block_sizes info.intensity).flatMap
        (fun bs => generate_possible_time_blocks (availOf parsed info.teacher e.1.2) bs) := by
  induction courses generalizing ab with
  | nil =>
    have hok' : (Except.ok [] : Except String (List ((String × String) × List (List Nat)))) =
        .ok ab := hok
    injection hok' with hok'
    subst hok'
    intro e he
    exact absurd he (List.not_mem_nil e)
  | cons hd tl ih =>
    obtain ⟨cid, info⟩ := hd
    intro e he
    simp only [buildBlocksAux] at hok
    by_cases hr : aulas_compatibles cls info = []
    · rw [if_pos hr] at hok
      exact absurd hok (by simp)
    · rw [if_neg hr] at hok
      rcases htl : buildBlocksAux cls parsed tl with e0 | tail <;> rw [htl] at hok
      · exact absurd hok (by simp)
      · injection hok with hok
        subst hok
        rcases List.mem_append.mp he with hcb | htail2
        · obtain ⟨day, hday, hav, heq⟩ := courseBlocks_mem hcb
          subst heq
          exact ⟨info, List.mem_cons_self _ _, hday, hav, rfl⟩
        · obtain ⟨info', hmem', hday', hav', heq'⟩ := ih htl e htail2
          exact ⟨info', List.mem_cons_of_mem _ hmem', hday', hav', heq'⟩

lemma assoc_unique {α : Type} {l : List (String × α)} (hnd : (l.map Prod.fst).Nodup)
    {k : String} {a b : α} (ha : (k, a) ∈ l) (hb : (k, b) ∈ l) : a = b := by
  induction l with
  | nil => exact absurd ha (List.not_mem_nil _)
  | cons e rest ih =>
    rw [List.map_cons, List.nodup_cons] at hnd
    obtain ⟨hk, hnd'⟩ := hnd
    rcases List.mem_cons.mp ha with h1 | h1 <;> rcases List.mem_cons.mp hb with h2 | h2
    · rw [← h1] at h2
      injection h2 with h2a h2b
      exact h2b.symm
    · exfalso
      apply hk
      have hmm : (k, b).1 ∈ List.map Prod.fst rest := List.mem_map_of_mem Prod.fst h2
      rw [← h1]
      exact hmm
    · exfalso
      apply hk
      have hmm : (k, a).1 ∈ List.map Prod.fst rest := List.mem_map_of_mem Prod.fst h1
      rw [← h2]
      exact hmm
    · exact ih hnd' h1 h2

lemma coveringVars_eq (courses : List (String × CourseInfo))
    (ab : List ((String × String) × List (List Nat))) (t day : String) (slot : Nat)
    (hnodup : ∀ e ∈ ab, ∀ blk ∈ e.2, blk.Nodup) :
    ((slotEntries courses ab t day).filter (fun e => e.1 = slot)).map (·.2) =
      coveringVars courses ab t day slot := by
  unfold slotEntries coveringVars
  rw [filter_flatMap', map_flatMap']
  congr 1
  funext p
  by_cases ht : p.2.teacher = t
  · rw [if_pos ht, if_pos ht]
    rw [filter_flatMap', map_flatMap', ← flatMap_toList_filterMap]
    have hB : ∀ blk ∈ blocksAt ab p.1 day, blk.Nodup := by
      intro blk hblk
      unfold blocksAt at hblk
      rcases hg : alist.get? ab (p.1, day) with - | blks
      · rw [hg] at hblk
        exact absurd hblk (by simp)
      · rw [hg] at hblk
        exact hnodup _ (alist_get?_mem hg) blk (by simpa using hblk)
    refine flatMap_congr_mem (fun q hq => ?_)
    have hqn : q.2.Nodup := hB q.2 (snd_mem_of_mem_enum hq)
    rw [List.filter_map, List.map_map]
    have : ((fun e => (e.1 = slot : Bool)) ∘ fun s => (s, Var.sched p.1 day q.1)) =
        (fun x => (x = slot : Bool)) := rfl
    rw [this, filter_eq_of_nodup hqn slot]
    by_cases hmem : slot ∈ q.2
    · rw [if_pos hmem, if_pos hmem]
      rfl
    · rw [if_neg hmem, if_neg hmem]
      rfl
  · rw [if_neg ht, if_neg ht]
    rfl

lemma evalSum_ones (σ : Var → Bool) (l : List Var) :
    evalSum σ (l.map (fun v => (1, v))) = l.countP (fun v => σ v) := by
  induction l with
  | nil => rfl
  | cons v vs ih =>
    rw [List.map_cons, evalSum_cons, ih, List.countP_cons]
    by_cases h : σ v <;> simp [boolVal, h] <;> omega

/-- C2: in every accepted solution, for every teacher, day and atomic
slot, at most one selected candidate block belonging to that teacher's
courses covers that slot. -/
theorem c2_teacher_no_overlap (inp : Input) (m : BuiltModel) (σ : Var → Bool)
    (hb : build_schedule_model inp = .built m) (hs : Satisfies σ m.constraints)
    (hnd : (inp.courses.map Prod.fst).Nodup) :
    ∀ t day slot,
      (coveringVars inp.courses m.all_blocks t day slot).countP (fun v => σ v) ≤ 1 := by
  intro t day slot
  obtain ⟨parsed, ab, -, habE, -, habm, hcons⟩ := build_built_inv hb
  rw [habm]
  by_cases hcov : coveringVars inp.courses ab t day slot = []
  · rw [hcov]
    simp
  · have hex : ∃ p ∈ inp.courses, p.2.teacher = t ∧
        ∃ q ∈ (blocksAt ab p.1 day).enum, slot ∈ q.2 := by
      obtain ⟨v, hv⟩ := List.exists_mem_of_ne_nil _ hcov
      unfold coveringVars at hv
      rw [List.mem_flatMap] at hv
      obtain ⟨p, hp, hv⟩ := hv
      by_cases ht : p.2.teacher = t
      · rw [if_pos ht] at hv
        rw [List.mem_filterMap] at hv
        obtain ⟨q, hq, hq2⟩ := hv
        by_cases hsl : slot ∈ q.2
        · exact ⟨p, hp, ht, q, hq, hsl⟩
        · rw [if_neg hsl] at hq2
          exact absurd hq2 (by simp)
      · rw [if_neg ht] at hv
        exact absurd hv (List.not_mem_nil v)
    obtain ⟨p, hp, ht, q, hq, hsl⟩ := hex
    have hblocks : ∃ blks, alist.get? ab (p.1, day) = some blks := by
      unfold blocksAt at hq
      rcases hg : alist.get? ab (p.1, day) with - | blks
      · rw [hg] at hq
        exact absurd hq (by simp)
      · exact ⟨blks, rfl⟩
    obtain ⟨blks, hg⟩ := hblocks
    have hentry : ((p.1, day), blks) ∈ ab := alist_get?_mem hg
    obtain ⟨info, hinfo, hday, hav, -⟩ := ab_blocks habE _ hentry
    have hinfo_eq : info = p.2 :=
      assoc_unique hnd hinfo (by rw [Prod.mk.eta]; exact hp)
    have htav : ∃ tav, (t, tav) ∈ parsed := by
      rw [hinfo_eq, ht] at hav
      unfold availOf at hav
      rcases hgt : alist.get? parsed t with - | dm
      · rw [hgt] at hav
        exact absurd rfl hav
      · exact ⟨dm, alist_get?_mem hgt⟩
    obtain ⟨tav, htavm⟩ := htav
    have hbn : ∀ e ∈ ab, ∀ blk ∈ e.2, blk.Nodup := by
      intro e he blk hblk
      obtain ⟨info', -, -, -, heq2⟩ := ab_blocks habE e he
      rw [heq2] at hblk
      rw [List.mem_flatMap] at hblk
      obtain ⟨bs, -, hblk⟩ := hblk
      obtain ⟨a, ha⟩ := gptb_shape hblk
      rw [ha]
      exact (List.nodup_range _).map (add_right_injective a)
    have hlk : lookupL (slotMapOf (slotEntries inp.courses ab t day)) slot =
        coveringVars inp.courses ab t day slot := by
      rw [slotMapOf_lookup]
      exact coveringVars_eq inp.courses ab t day slot hbn
    have hcmem : Constr.leC ((coveringVars inp.courses ab t day slot).map
        (fun v => (1, v))) 1 ∈ m.constraints := by
      rw [hcons]
      have hto : Constr.leC ((coveringVars inp.courses ab t day slot).map
          (fun v => (1, v))) 1 ∈ teacherOverlapCons parsed inp.courses ab := by
        unfold teacherOverlapCons
        rw [List.mem_flatMap]
        refine ⟨(t, tav), htavm, ?_⟩
        rw [List.mem_flatMap]
        refine ⟨day, hday, ?_⟩
        rw [List.mem_map]
        refine ⟨(slot, coveringVars inp.courses ab t day slot), ?_, rfl⟩
        rw [← hlk]
        exact lookupL_mem _ _ (by rw [hlk]; exact hcov)
      simp only [allConstraints, List.mem_append]
      tauto
    have hh := hs _ hcmem
    simp only [holdsCon] at hh
    rw [evalSum_ones] at hh
    exact hh

/-- Witness for C2 on `exA`: teacher `"T"`, Monday, slot 16. -/
theorem c2_teacher_no_overlap_witness :
    (coveringVars exA.courses (theModel exA).all_blocks "T" "Lunes" 16).countP
      (fun v => sigA v) ≤ 1 :=
  c2_teacher_no_overlap exA (theModel exA) sigA rfl (by decide) (by decide)
    "T" "Lunes" 16

end Horarios
